import Mathlib

/-!
Verification of the two-pass streaming document pipeline in
`src/main.py` (local_json_cc_net).  Documents are JSON records; we embed
them as association lists from field names to values.  Stage internals
that live in the external `cc_net` library (dedup, jsonql, perplexity,
split_by_lang) are modelled from the specification's component design;
everything defined in `src/main.py` itself (the `ManualMinifier`, the
pipeline construction in `main`, `compute_hashes`) is transcribed from
the source.
-/

/-- A JSON scalar value stored in a document field. -/
inductive Value where
  | str : String → Value
  | num : Int → Value
deriving DecidableEq

/-- A Document: an ordered mapping from field name to value (a Python
dict with insertion order), embedded as an association list. -/
abbrev Doc := List (String × Value)

/-- Field lookup, `doc.get(k)` in Python: the value of the first pair
whose key is `k`, or `none` when the field is absent. -/
def getField (d : Doc) (k : String) : Option Value :=
  (d.find? fun p => p.1 == k).map Prod.snd

/-- Field assignment, `doc[k] = v` in Python: replaces the value of an
existing key in place, otherwise appends the new pair at the end. -/
def setField (d : Doc) (k : String) (v : Value) : Doc :=
  if d.any fun p => p.1 == k then
    d.map fun p => if p.1 == k then (k, v) else p
  else d ++ [(k, v)]

/-- The allow-list `self.fields_to_keep` of `ManualMinifier.__init__`
in `src/main.py` (lines 13-28), transcribed verbatim. -/
def fields_to_keep : List String :=
  ["url", "raw_content", "digest", "source_domain", "title",
   "date_download", "bucket", "language_score", "length", "nlines",
   "original_length", "original_nlines", "perplexity", "language"]

/-- `ManualMinifier.do` from `src/main.py` (lines 30-36): returns
`None` for an empty/falsy document, otherwise a new document holding
exactly the input pairs whose key is in the allow-list. -/
def ManualMinifier.do' (doc : Doc) : Option Doc :=
  if doc = [] then none
  else some (doc.filter fun p => decide (p.1 ∈ fields_to_keep))

/-- The passthrough metadata fields named in the data model section of
the specification. -/
def passthroughFields : List String :=
  ["url", "source_domain", "title", "date_download", "length",
   "nlines", "original_length", "original_nlines"]

/-- Looking a head pair up skips it when its key differs. -/
theorem getField_cons_of_ne (p : String × Value) (rest : Doc)
    (k : String) (h : (p.1 == k) = false) :
    getField (p :: rest) k = getField rest k := by
  simp [getField, List.find?_cons, h]

/-- Looking a key up in a key-filtered document: present with its old
value when the key passes the filter, absent otherwise. -/
theorem getField_filter (q : String → Bool) (d : Doc) (k : String) :
    getField (d.filter fun p => q p.1) k =
      if q k then getField d k else none := by
  induction d with
  | nil => simp [getField]
  | cons p rest ih =>
    cases hq : q p.1 with
    | false =>
      have hdrop : (p :: rest).filter (fun p => q p.1) =
          rest.filter (fun p => q p.1) := by
        simp [List.filter_cons, hq]
      rw [hdrop, ih]
      by_cases hk : p.1 = k
      · subst hk
        rw [hq]
        simp
      · have hbk : (p.1 == k) = false := beq_false_of_ne hk
        rw [getField_cons_of_ne p rest k hbk]
    | true =>
      have hkeep : (p :: rest).filter (fun p => q p.1) =
          p :: rest.filter (fun p => q p.1) := by
        simp [List.filter_cons, hq]
      rw [hkeep]
      by_cases hk : p.1 = k
      · subst hk
        rw [hq]
        simp [getField, List.find?_cons]
      · have hbk : (p.1 == k) = false := beq_false_of_ne hk
        rw [getField_cons_of_ne p _ k hbk, ih,
          getField_cons_of_ne p rest k hbk]

/-- C6: for every non-empty document, the field projector produces a
new document whose fields are exactly the intersection of the present
fields with the allow-list, each kept field mapped to its old value. -/
theorem minifier_projects_intersection (d : Doc) (hne : d ≠ []) :
    ∃ d', ManualMinifier.do' d = some d' ∧
      ∀ k, getField d' k =
        if k ∈ fields_to_keep then getField d k else none := by
  refine ⟨d.filter fun p => decide (p.1 ∈ fields_to_keep), ?_, ?_⟩
  · unfold ManualMinifier.do'
    rw [if_neg hne]
  · intro k
    rw [getField_filter (fun s => decide (s ∈ fields_to_keep)) d k]
    by_cases hk : k ∈ fields_to_keep <;> simp [hk]

/-- Witness for C6 at a concrete two-field document. -/
theorem minifier_projects_intersection_witness :
    ∃ d', ManualMinifier.do' [("url", Value.str "u"),
        ("junk", Value.str "j")] = some d' ∧
      ∀ k, getField d' k =
        if k ∈ fields_to_keep then
          getField [("url", Value.str "u"), ("junk", Value.str "j")] k
        else none :=
  minifier_projects_intersection
    [("url", Value.str "u"), ("junk", Value.str "j")] (by decide)

/-- C8: the projector drops a document exactly when the input is
empty/falsy. -/
theorem minifier_drops_iff_empty (d : Doc) :
    ManualMinifier.do' d = none ↔ d = [] := by
  unfold ManualMinifier.do'
  by_cases h : d = [] <;> simp [h]

/-- C7 counterexample: on a non-empty document with no allow-listed
field, one application yields the empty document (kept), while a second
application drops it, so `do` composed with itself differs from `do`. -/
theorem minifier_not_idempotent_cex :
    ManualMinifier.do' [("junk", Value.str "x")] = some [] ∧
    (ManualMinifier.do' [("junk", Value.str "x")]).bind
        ManualMinifier.do' ≠
      ManualMinifier.do' [("junk", Value.str "x")] := by
  constructor
  · rfl
  · decide

/-- C7 amended: the projector is idempotent on every document that is
empty or retains at least one allow-listed field. -/
theorem minifier_idempotent_on_nonvanishing (d : Doc)
    (h : d = [] ∨ ∃ p ∈ d, p.1 ∈ fields_to_keep) :
    (ManualMinifier.do' d).bind ManualMinifier.do' =
      ManualMinifier.do' d := by
  rcases h with rfl | ⟨p, hp, hk⟩
  · rfl
  · have hne : d ≠ [] := by rintro rfl; cases hp
    have hdo : ManualMinifier.do' d =
        some (d.filter fun q => decide (q.1 ∈ fields_to_keep)) := by
      unfold ManualMinifier.do'
      rw [if_neg hne]
    rw [hdo]
    show ManualMinifier.do'
        (d.filter fun q => decide (q.1 ∈ fields_to_keep)) = _
    have hmem : p ∈ d.filter fun q => decide (q.1 ∈ fields_to_keep) :=
      List.mem_filter.mpr ⟨hp, by simpa using hk⟩
    have hfne : d.filter (fun q => decide (q.1 ∈ fields_to_keep)) ≠ [] := by
      intro hnil
      rw [hnil] at hmem
      cases hmem
    unfold ManualMinifier.do'
    rw [if_neg hfne]
    congr 1
    apply List.filter_eq_self.mpr
    intro a ha
    exact (List.mem_filter.mp ha).2

/-- Witness for C7 (amended) at a document with one allow-listed field. -/
theorem minifier_idempotent_on_nonvanishing_witness :
    (ManualMinifier.do' [("url", Value.str "u")]).bind
        ManualMinifier.do' =
      ManualMinifier.do' [("url", Value.str "u")] :=
  minifier_idempotent_on_nonvanishing [("url", Value.str "u")]
    (Or.inr ⟨("url", Value.str "u"), by decide, by decide⟩)

/-- C2 counterexample: `tokenized` is not in the allow-list, so a
document carrying a `tokenized` field loses it under the projector. -/
theorem minifier_drops_tokenized_cex :
    "tokenized" ∉ fields_to_keep ∧
    ManualMinifier.do' [("tokenized", Value.str "t")] = some [] ∧
    getField ([] : Doc) "tokenized" = none := by
  refine ⟨by decide, rfl, rfl⟩

/-- C2 amended: the allow-list contains `digest`, `language`,
`perplexity`, `bucket`, every passthrough metadata field, and also
`raw_content` and `language_score`, but not `tokenized`; consequently
the projector removes the `tokenized` field from every document it
keeps. -/
theorem minifier_allowlist_contents :
    ("digest" ∈ fields_to_keep ∧ "language" ∈ fields_to_keep ∧
      "perplexity" ∈ fields_to_keep ∧ "bucket" ∈ fields_to_keep) ∧
    "tokenized" ∉ fields_to_keep ∧
    (∀ k ∈ passthroughFields, k ∈ fields_to_keep) ∧
    ("raw_content" ∈ fields_to_keep ∧
      "language_score" ∈ fields_to_keep) ∧
    (∀ d d', ManualMinifier.do' d = some d' →
      getField d' "tokenized" = none) := by
  refine ⟨by decide, by decide, by decide, by decide, ?_⟩
  intro d d' h
  unfold ManualMinifier.do' at h
  by_cases hne : d = []
  · rw [if_pos hne] at h
    cases h
  · rw [if_neg hne] at h
    cases h
    rw [getField_filter (fun s => decide (s ∈ fields_to_keep)) d
      "tokenized"]
    simp [fields_to_keep]

/-- Witness for C2 (amended): the projector output of a concrete
document holding only `tokenized` no longer has the field. -/
theorem minifier_allowlist_contents_witness :
    getField ([] : Doc) "tokenized" = none :=
  minifier_allowlist_contents.2.2.2.2
    [("tokenized", Value.str "t")] [] rfl

/-- Modelled from the spec: the fingerprint of a document is
deterministically derived from its `raw_content` field (the concrete
hash of `cc_net.dedup` is out of scope, so the hash function `fp` is a
parameter); a document without a textual `raw_content` yields none. -/
def docFingerprint (fp : String → Nat) (d : Doc) : Option Nat :=
  match getField d "raw_content" with
  | some (Value.str s) => some (fp s)
  | _ => none

/-- Modelled from the spec: the keep/drop decision of the
`dedup.DuplicatesRemover` stage (configured in `src/main.py` lines
61-63, internals in the external `cc_net` library) on its input stream:
a seen-before filter over fingerprints of `raw_content` — drop when the
fingerprint is already in the seen set, otherwise insert it and keep;
a document whose fingerprint cannot be computed is a per-document
failure and is dropped. -/
def dedupStreamFlags (fp : String → Nat) :
    List Nat → List Doc → List Bool
  | _, [] => []
  | seen, d :: ds =>
    match docFingerprint fp d with
    | none => false :: dedupStreamFlags fp seen ds
    | some f =>
      if f ∈ seen then false :: dedupStreamFlags fp seen ds
      else true :: dedupStreamFlags fp (f :: seen) ds

/-- A position in the duplicate remover's input stream is kept exactly
when its fingerprint exists, is not in the initial seen set, and no
earlier position carries the same fingerprint. -/
theorem dedupStreamFlags_getD (fp : String → Nat) :
    ∀ (docs : List Doc) (seen : List Nat) (j : Nat), j < docs.length →
      ((dedupStreamFlags fp seen docs).getD j false = true ↔
        ∃ f, docFingerprint fp (docs.getD j []) = some f ∧ f ∉ seen ∧
          ∀ i, i < j → docFingerprint fp (docs.getD i []) ≠ some f) := by
  intro docs
  induction docs with
  | nil =>
    intro seen j hj
    simp at hj
  | cons d ds ih =>
    intro seen j hj
    cases hd : docFingerprint fp d with
    | none =>
      cases j with
      | zero =>
        simp [dedupStreamFlags, hd]
      | succ j' =>
        have hj' : j' < ds.length := by simpa using hj
        rw [show dedupStreamFlags fp seen (d :: ds) =
            false :: dedupStreamFlags fp seen ds by
          simp [dedupStreamFlags, hd]]
        rw [List.getD_cons_succ, List.getD_cons_succ, ih seen j' hj']
        constructor
        · rintro ⟨f, hf, hs, hall⟩
          refine ⟨f, hf, hs, ?_⟩
          intro i hi
          cases i with
          | zero =>
            rw [List.getD_cons_zero, hd]
            exact fun h => Option.noConfusion h
          | succ i' =>
            rw [List.getD_cons_succ]
            exact hall i' (by omega)
        · rintro ⟨f, hf, hs, hall⟩
          refine ⟨f, hf, hs, ?_⟩
          intro i hi
          have := hall (i + 1) (by omega)
          rwa [List.getD_cons_succ] at this
    | some f0 =>
      by_cases hmem : f0 ∈ seen
      · cases j with
        | zero =>
          rw [show dedupStreamFlags fp seen (d :: ds) =
              false :: dedupStreamFlags fp seen ds by
            simp [dedupStreamFlags, hd, hmem]]
          rw [List.getD_cons_zero, List.getD_cons_zero]
          constructor
          · intro h
            cases h
          · rintro ⟨f, hf, hs, -⟩
            rw [hd] at hf
            cases hf
            exact absurd hmem hs
        | succ j' =>
          have hj' : j' < ds.length := by simpa using hj
          rw [show dedupStreamFlags fp seen (d :: ds) =
              false :: dedupStreamFlags fp seen ds by
            simp [dedupStreamFlags, hd, hmem]]
          rw [List.getD_cons_succ, List.getD_cons_succ, ih seen j' hj']
          constructor
          · rintro ⟨f, hf, hs, hall⟩
            refine ⟨f, hf, hs, ?_⟩
            intro i hi
            cases i with
            | zero =>
              rw [List.getD_cons_zero, hd]
              intro h
              cases h
              exact hs hmem
            | succ i' =>
              rw [List.getD_cons_succ]
              exact hall i' (by omega)
          · rintro ⟨f, hf, hs, hall⟩
            refine ⟨f, hf, hs, ?_⟩
            intro i hi
            have := hall (i + 1) (by omega)
            rwa [List.getD_cons_succ] at this
      · cases j with
        | zero =>
          rw [show dedupStreamFlags fp seen (d :: ds) =
              true :: dedupStreamFlags fp (f0 :: seen) ds by
            simp [dedupStreamFlags, hd, hmem]]
          rw [List.getD_cons_zero, List.getD_cons_zero]
          constructor
          · intro _
            exact ⟨f0, hd, hmem, fun i hi => absurd hi (by omega)⟩
          · intro _
            rfl
        | succ j' =>
          have hj' : j' < ds.length := by simpa using hj
          rw [show dedupStreamFlags fp seen (d :: ds) =
              true :: dedupStreamFlags fp (f0 :: seen) ds by
            simp [dedupStreamFlags, hd, hmem]]
          rw [List.getD_cons_succ, List.getD_cons_succ,
            ih (f0 :: seen) j' hj']
          constructor
          · rintro ⟨f, hf, hs, hall⟩
            have hne : f ≠ f0 := by
              intro h
              exact hs (h ▸ List.mem_cons_self f0 seen)
            refine ⟨f, hf, fun h => hs (List.mem_cons_of_mem f0 h), ?_⟩
            intro i hi
            cases i with
            | zero =>
              rw [List.getD_cons_zero, hd]
              intro h
              cases h
              exact hne rfl
            | succ i' =>
              rw [List.getD_cons_succ]
              exact hall i' (by omega)
          · rintro ⟨f, hf, hs, hall⟩
            have h0 := hall 0 (by omega)
            rw [List.getD_cons_zero, hd] at h0
            have hne : f ≠ f0 := fun h => h0 (h ▸ rfl)
            refine ⟨f, hf, ?_, ?_⟩
            · intro h
              rcases List.mem_cons.mp h with h | h
              · exact hne h
              · exact hs h
            · intro i hi
              have := hall (i + 1) (by omega)
              rwa [List.getD_cons_succ] at this

/-- C1 counterexample: with three documents of pairwise-equal
fingerprint, the claim instantiated at positions i = 1 and j = 2 (both
sharing the fingerprint) demands that the document at position 1 be
kept, but the duplicate remover drops it — only position 0 survives. -/
theorem dedup_pairwise_claim_cex :
    (1 : Nat) < 2 ∧
    docFingerprint String.length
        ([[("raw_content", Value.str "a")], [("raw_content", Value.str "b")],
          [("raw_content", Value.str "c")]].getD 1 []) = some 1 ∧
    docFingerprint String.length
        ([[("raw_content", Value.str "a")], [("raw_content", Value.str "b")],
          [("raw_content", Value.str "c")]].getD 2 []) = some 1 ∧
    (dedupStreamFlags String.length []
        [[("raw_content", Value.str "a")], [("raw_content", Value.str "b")],
          [("raw_content", Value.str "c")]]).getD 1 false = false := by
  refine ⟨by omega, rfl, rfl, rfl⟩

/-- C1 amended: among documents sharing a fingerprint the duplicate
remover keeps exactly the first occurrence — a document at position j
whose fingerprint also occurs at an earlier position i is dropped, and
the document at i is kept provided no position before i carries that
fingerprint. -/
theorem dedup_first_occurrence_wins (fp : String → Nat)
    (docs : List Doc) (i j : Nat) (f : Nat) (hij : i < j)
    (hj : j < docs.length)
    (hfi : docFingerprint fp (docs.getD i []) = some f)
    (hfj : docFingerprint fp (docs.getD j []) = some f) :
    (dedupStreamFlags fp [] docs).getD j false = false ∧
    ((∀ k, k < i → docFingerprint fp (docs.getD k []) ≠ some f) →
      (dedupStreamFlags fp [] docs).getD i false = true) := by
  constructor
  · cases hb : (dedupStreamFlags fp [] docs).getD j false
    · rfl
    · exfalso
      rcases (dedupStreamFlags_getD fp docs [] j hj).mp hb with
        ⟨f', hf', -, hall⟩
      rw [hfj] at hf'
      cases hf'
      exact hall i hij hfi
  · intro hfirst
    have hi : i < docs.length := by omega
    exact (dedupStreamFlags_getD fp docs [] i hi).mpr
      ⟨f, hfi, by simp, hfirst⟩

/-- Witness for C1 (amended): two distinct documents with equal
fingerprints (equal content length under the length fingerprint); the
first is kept, the second dropped. -/
theorem dedup_first_occurrence_wins_witness :
    (dedupStreamFlags String.length []
        [[("raw_content", Value.str "aa")],
         [("raw_content", Value.str "bb")]]).getD 1 false = false ∧
    ((∀ k, k < 0 → docFingerprint String.length
        ([[("raw_content", Value.str "aa")],
          [("raw_content", Value.str "bb")]].getD k []) ≠ some 2) →
      (dedupStreamFlags String.length []
          [[("raw_content", Value.str "aa")],
           [("raw_content", Value.str "bb")]]).getD 0 false = true) :=
  dedup_first_occurrence_wins String.length
    [[("raw_content", Value.str "aa")], [("raw_content", Value.str "bb")]]
    0 1 2 (by omega) (by simp) rfl rfl

/-- Modelled from the spec: `perplexity.RemoveSmall` (configured in
`src/main.py` line 60, internals in the external `cc_net` library), the
length filter — drops a document whose configured text field's length
is below the minimum threshold; a document lacking the field is a
per-document failure and is dropped. -/
def RemoveSmall (min_len : Nat) (d : Doc) : Option Doc :=
  match getField d "raw_content" with
  | some (Value.str s) => if s.length < min_len then none else some d
  | _ => none

/-- Modelled from the spec: the per-document form of
`dedup.DuplicatesRemover` given the current seen set (see
`dedupStreamFlags` for the stream form). -/
def DuplicatesRemover (fp : String → Nat) (seen : List Nat)
    (d : Doc) : Option Doc :=
  match docFingerprint fp d with
  | some f => if f ∈ seen then none else some d
  | none => none

/-- Modelled from the spec: `split_by_lang.Classifier` (configured in
`src/main.py` lines 64-69, internals external) — adds a `language`
field holding the top-1 code returned by the language-identification
capability on `raw_content`; a missing field or an empty classifier
result is a per-document failure and is dropped. -/
def Classifier (classify : String → Option String) (d : Doc) :
    Option Doc :=
  match getField d "raw_content" with
  | some (Value.str s) =>
    match classify s with
    | some lang => some (setField d "language" (Value.str lang))
    | none => none
  | _ => none

/-- Modelled from the spec: `jsonql.where` (used in `src/main.py` line
70, internals external), the generic predicate filter — keeps a
document exactly when every configured clause evaluates true on it. -/
def jsonql_where (clauses : List (Doc → Bool)) (d : Doc) :
    Option Doc :=
  if clauses.all fun c => c d then some d else none

/-- The predicate lambda passed to `jsonql.where` in `src/main.py` line
70: `doc.get("language") == "tr"`. -/
def mainLangPred (d : Doc) : Bool :=
  decide (getField d "language" = some (Value.str "tr"))

/-- Modelled from the spec: `perplexity.SentencePiece` (configured in
`src/main.py` lines 71-76, internals external), the tokenizer — reads
`raw_content`, writes the tokenized form (normalization folded into the
tokenizer capability) to `tokenized`, leaving the source untouched;
drops the document when the source field is absent or the capability
yields nothing. -/
def SentencePiece (tok : String → Option String) (d : Doc) :
    Option Doc :=
  match getField d "raw_content" with
  | some (Value.str s) =>
    (tok s).map fun t => setField d "tokenized" (Value.str t)
  | _ => none

/-- Modelled from the spec: `perplexity.DocLM` (configured in
`src/main.py` lines 77-82, internals external), the perplexity scorer —
reads `tokenized`, writes the score returned by the language-model
capability to `perplexity`; a missing field or an empty result is a
per-document failure and is dropped. -/
def DocLM (score : String → Option Int) (d : Doc) : Option Doc :=
  match getField d "tokenized" with
  | some (Value.str s) =>
    (score s).map fun p => setField d "perplexity" (Value.num p)
  | _ => none

/-- Modelled from the spec: `perplexity.PerplexityBucket` (configured
in `src/main.py` line 83, internals external), the quality bucketer —
looks the document's `perplexity` up in the cutoff table for its
`language` and writes the `bucket` label; a missing field or a missing
cutoff entry is a per-document failure and is dropped. -/
def PerplexityBucket (lookup : String → Int → Option String)
    (d : Doc) : Option Doc :=
  match getField d "language", getField d "perplexity" with
  | some (Value.str lang), some (Value.num p) =>
    (lookup lang p).map fun b => setField d "bucket" (Value.str b)
  | _, _ => none

/-- The names of the eight pass-2 transformation stages, in the order
they are listed in the `pipeline` of `main` (`src/main.py` lines
58-85); the initial `jsonql.JsonReader` entry is the record-parsing
step producing the `Doc` stream and precedes all of them. -/
inductive StageKind where
  | removeSmall
  | duplicatesRemover
  | classifier
  | whereLang
  | sentencePiece
  | docLM
  | perplexityBucket
  | manualMinifier
deriving DecidableEq

/-- The configuration of the pass-2 pipeline: the length threshold, the
external capabilities backing each stage, and the fingerprint-store
files handed to the duplicate remover. -/
structure Config where
  min_len : Nat
  fp : String → Nat
  classifyTop1 : String → Option String
  tokenize : String → Option String
  score : String → Option Int
  cutoffLookup : String → Int → Option String
  hashes_files : List String

/-- The pass-2 stage chain of `main` (`src/main.py` lines 58-85),
transcribed in source order, with the duplicate remover holding the
current seen set. -/
def mainStages (cfg : Config) (seen : List Nat) :
    List (StageKind × (Doc → Option Doc)) :=
  [(StageKind.removeSmall, RemoveSmall cfg.min_len),
   (StageKind.duplicatesRemover, DuplicatesRemover cfg.fp seen),
   (StageKind.classifier, Classifier cfg.classifyTop1),
   (StageKind.whereLang, jsonql_where [mainLangPred]),
   (StageKind.sentencePiece, SentencePiece cfg.tokenize),
   (StageKind.docLM, DocLM cfg.score),
   (StageKind.perplexityBucket, PerplexityBucket cfg.cutoffLookup),
   (StageKind.manualMinifier, ManualMinifier.do')]

/-- Modelled from the spec: the per-document loop of
`jsonql.run_pipes` (called in `src/main.py` line 87, internals
external) — apply the stages in order, stopping at the first drop. -/
def runStages : List (StageKind × (Doc → Option Doc)) → Doc →
    Option Doc
  | [], d => some d
  | s :: rest, d =>
    match s.2 d with
    | none => none
    | some d' => runStages rest d'

/-- Instrumented form of `runStages` that also records which stages
processed the document. -/
def runStagesTrace : List (StageKind × (Doc → Option Doc)) → Doc →
    List StageKind × Option Doc
  | [], d => ([], some d)
  | s :: rest, d =>
    match s.2 d with
    | none => ([s.1], none)
    | some d' =>
      let r := runStagesTrace rest d'
      (s.1 :: r.1, r.2)

/-- Splitting an instrumented run at a surviving prefix: the trace is
the prefix's stages followed by the trace of the remainder. -/
theorem runStagesTrace_append
    (pre rest : List (StageKind × (Doc → Option Doc))) (d d' : Doc)
    (h : runStages pre d = some d') :
    runStagesTrace (pre ++ rest) d =
      ((pre.map Prod.fst) ++ (runStagesTrace rest d').1,
        (runStagesTrace rest d').2) := by
  induction pre generalizing d with
  | nil =>
    cases h
    rfl
  | cons s pre ih =>
    cases hs : s.2 d with
    | none =>
      rw [show runStages (s :: pre) d = none by
        simp [runStages, hs]] at h
      cases h
    | some d1 =>
      have hrest : runStages pre d1 = some d' := by
        rw [show runStages (s :: pre) d = runStages pre d1 by
          simp [runStages, hs]] at h
        exact h
      rw [show (s :: pre) ++ rest = s :: (pre ++ rest) from rfl]
      rw [show runStagesTrace (s :: (pre ++ rest)) d =
          (s.1 :: (runStagesTrace (pre ++ rest) d1).1,
            (runStagesTrace (pre ++ rest) d1).2) by
        simp [runStagesTrace, hs]]
      rw [ih d1 hrest]
      rfl

/-- C3: the pass-2 stages occur in exactly the fixed order named by the
specification, and whenever the document surviving a prefix of the
chain is dropped by the next stage, the instrumented run ends there —
no later stage processes the document. -/
theorem pipeline_order_and_short_circuit (cfg : Config)
    (seen : List Nat) :
    (mainStages cfg seen).map Prod.fst =
      [StageKind.removeSmall, StageKind.duplicatesRemover,
       StageKind.classifier, StageKind.whereLang,
       StageKind.sentencePiece, StageKind.docLM,
       StageKind.perplexityBucket, StageKind.manualMinifier] ∧
    ∀ (pre : List (StageKind × (Doc → Option Doc)))
      (s : StageKind × (Doc → Option Doc))
      (post : List (StageKind × (Doc → Option Doc))) (d d' : Doc),
      mainStages cfg seen = pre ++ s :: post →
      runStages pre d = some d' → s.2 d' = none →
      runStagesTrace (mainStages cfg seen) d =
        (pre.map Prod.fst ++ [s.1], none) := by
  constructor
  · rfl
  · intro pre s post d d' heq hpre hdrop
    rw [heq, runStagesTrace_append pre (s :: post) d d' hpre]
    rw [show runStagesTrace (s :: post) d' = ([s.1], none) by
      simp [runStagesTrace, hdrop]]

/-- A concrete configuration for exercising the stage chain. -/
def cfgW : Config where
  min_len := 3
  fp := String.length
  classifyTop1 := fun _ => some "tr"
  tokenize := fun s => some s
  score := fun _ => some 7
  cutoffLookup := fun _ _ => some "head"
  hashes_files := []

/-- Witness for C3: a two-character document is dropped by the length
filter (threshold 3), and the instrumented run records only that
stage. -/
theorem pipeline_order_and_short_circuit_witness :
    runStagesTrace (mainStages cfgW [])
        [("raw_content", Value.str "ab")] =
      ([StageKind.removeSmall], none) :=
  (pipeline_order_and_short_circuit cfgW []).2 []
    (StageKind.removeSmall, RemoveSmall cfgW.min_len)
    [(StageKind.duplicatesRemover, DuplicatesRemover cfgW.fp []),
     (StageKind.classifier, Classifier cfgW.classifyTop1),
     (StageKind.whereLang, jsonql_where [mainLangPred]),
     (StageKind.sentencePiece, SentencePiece cfgW.tokenize),
     (StageKind.docLM, DocLM cfgW.score),
     (StageKind.perplexityBucket, PerplexityBucket cfgW.cutoffLookup),
     (StageKind.manualMinifier, ManualMinifier.do')]
    [("raw_content", Value.str "ab")]
    [("raw_content", Value.str "ab")] rfl rfl (by decide)

/-- `compute_hashes` from `src/main.py` (lines 39-42): runs a pipeline
containing only `dedup.HashesCollector` over the `raw_content` field of
the input stream and returns the fingerprint store it writes (the
collector internals are external; modelled from the spec: one
fingerprint per document in stream order, a document without the field
is skipped and contributes nothing). -/
def compute_hashes (fp : String → Nat) (input : List Doc) : List Nat :=
  input.filterMap (docFingerprint fp)

/-- C5 counterexample: an input document without a `raw_content` field
is skipped by pass 1 and occupies no fingerprint slot, so the store is
shorter than the input stream. -/
theorem pass1_skips_contentless_cex :
    compute_hashes String.length [[("url", Value.str "u")]] = [] ∧
    ([[("url", Value.str "u")]] : List Doc).length = 1 := by
  exact ⟨rfl, rfl⟩

/-- C5 amended: pass 1 applies no filtering stage, so when every input
document carries a textual `raw_content` — in particular documents
shorter than any minimum length that pass 2 will later drop — the store
holds exactly one fingerprint per document, in stream order; only a
document lacking `raw_content` is skipped. -/
theorem pass1_fingerprints_all_content (fp : String → Nat)
    (docs : List Doc)
    (h : ∀ d ∈ docs, (docFingerprint fp d).isSome = true) :
    (compute_hashes fp docs).length = docs.length ∧
    ∀ j, j < docs.length →
      some ((compute_hashes fp docs).getD j 0) =
        docFingerprint fp (docs.getD j []) := by
  induction docs with
  | nil =>
    exact ⟨rfl, fun j hj => absurd hj (by simp)⟩
  | cons d ds ih =>
    rcases Option.isSome_iff_exists.mp
      (h d (List.mem_cons_self d ds)) with ⟨f, hf⟩
    have hstep : compute_hashes fp (d :: ds) =
        f :: compute_hashes fp ds := by
      simp [compute_hashes, List.filterMap_cons, hf]
    rcases ih (fun x hx => h x (List.mem_cons_of_mem d hx)) with
      ⟨hlen, hidx⟩
    constructor
    · rw [hstep]
      simpa using hlen
    · intro j hj
      cases j with
      | zero =>
        rw [hstep, List.getD_cons_zero, List.getD_cons_zero, hf]
      | succ j' =>
        rw [hstep, List.getD_cons_succ, List.getD_cons_succ]
        exact hidx j' (by simpa using hj)

/-- Witness for C5 (amended): a single short document (2 characters,
below the default threshold 300) still occupies a fingerprint slot. -/
theorem pass1_fingerprints_all_content_witness :
    (compute_hashes String.length
        [[("raw_content", Value.str "ab")]]).length =
      ([[("raw_content", Value.str "ab")]] : List Doc).length ∧
    ∀ j, j < ([[("raw_content", Value.str "ab")]] : List Doc).length →
      some ((compute_hashes String.length
          [[("raw_content", Value.str "ab")]]).getD j 0) =
        docFingerprint String.length
          ([[("raw_content", Value.str "ab")]].getD j []) :=
  pass1_fingerprints_all_content String.length
    [[("raw_content", Value.str "ab")]] (by decide)

/-- C9: the language predicate filter of `src/main.py` line 70 keeps a
document exactly when its `language` field equals the string "tr", and
drops every document whose `language` field differs. -/
theorem where_keeps_exactly_turkish (d : Doc) :
    (jsonql_where [mainLangPred] d = some d ↔
      getField d "language" = some (Value.str "tr")) ∧
    (∀ v, getField d "language" = some v → v ≠ Value.str "tr" →
      jsonql_where [mainLangPred] d = none) := by
  constructor
  · unfold jsonql_where mainLangPred
    by_cases h : getField d "language" = some (Value.str "tr") <;>
      simp [h]
  · intro v hv hne
    unfold jsonql_where mainLangPred
    have : ¬ getField d "language" = some (Value.str "tr") := by
      rw [hv]
      intro h
      cases h
      exact hne rfl
    simp [this]

/-- Witness for C9: a document classified as "en" is dropped by the
predicate filter. -/
theorem where_keeps_exactly_turkish_witness :
    jsonql_where [mainLangPred] [("language", Value.str "en")] = none :=
  (where_keeps_exactly_turkish [("language", Value.str "en")]).2
    (Value.str "en") rfl (by decide)

/-- Modelled from the spec: `Path.with_suffix` from Python's pathlib
(external standard library) — replaces the extension after the last
dot, or appends the suffix when there is none. -/
def pathWithSuffix (p suffix : String) : String :=
  let parts := p.splitOn "."
  if parts.length ≤ 1 then p ++ suffix
  else String.intercalate "." parts.dropLast ++ suffix

/-- The module-level `args` object of `src/main.py` (lines 90-114): the
six parsed command-line values. -/
structure Args where
  file : String
  output : String
  min_len : Nat
  lang_id_model : String
  lm_dir : String
  cutoff_csv : String

/-- The external collaborators of the pipeline, indexed by the path
they are loaded from: language-identification, tokenizer and
language-model loaders, the cutoff-table loader, and the fingerprint
function of the hash collector. -/
structure ExternalModels where
  loadLangId : String → (String → Option String)
  loadSP : String → (String → Option String)
  loadLM : String → (String → Option Int)
  loadCutoffs : String → (String → Int → Option String)
  fingerprint : String → Nat

/-- The pass-2 stage configuration built inside `main` (`src/main.py`
lines 58-85): threshold and model paths are read from the module-level
`args`, the duplicate remover is handed the single hashes file derived
from `args.file`. -/
def mainConfig (args : Args) (ext : ExternalModels) : Config where
  min_len := args.min_len
  fp := ext.fingerprint
  classifyTop1 := ext.loadLangId args.lang_id_model
  tokenize := ext.loadSP (args.lm_dir ++ "/tr.sp.model")
  score := ext.loadLM (args.lm_dir ++ "/tr.arpa.bin")
  cutoffLookup := ext.loadCutoffs args.cutoff_csv
  hashes_files := [pathWithSuffix args.file ".hashes"]

/-- The observable actions of one run of `main`. -/
inductive Event where
  | writeHashStore : String → List Nat → Event
  | runPass2Pipeline : Config → String → String → Event

/-- The body of `main` from `src/main.py` (lines 45-87) as the ordered
sequence of its observable actions on the input stream read from
`args.file`: first `compute_hashes` writes the fingerprint store to
`args.file` with suffix `.hashes`, then `jsonql.run_pipes` runs the
pass-2 pipeline from `args.file` to `args.output`.  The six formal
parameters are declared exactly as in the source, where the body never
reads them — every configuration value comes from the module-level
`args`. -/
def mainEvents (file : String) (output : String) (min_len : Nat)
    (lang_id_model : String) (lm_dir : String) (cutoff_csv : String)
    (args : Args) (ext : ExternalModels) (input : List Doc) :
    List Event :=
  let hashes_file := pathWithSuffix args.file ".hashes"
  [Event.writeHashStore hashes_file
      (compute_hashes ext.fingerprint input),
   Event.runPass2Pipeline (mainConfig args ext) args.file args.output]

/-- C4: in every run of `main` the fingerprint store — the full pass-1
store over the whole input stream — is written as the first action,
strictly before the pass-2 pipeline action, and the pass-2 duplicate
remover is configured to read exactly that store file. -/
theorem store_written_before_pass2 (file output : String)
    (min_len : Nat) (lang_id_model lm_dir cutoff_csv : String)
    (args : Args) (ext : ExternalModels) (input : List Doc) :
    mainEvents file output min_len lang_id_model lm_dir cutoff_csv
        args ext input =
      [Event.writeHashStore (pathWithSuffix args.file ".hashes")
          (compute_hashes ext.fingerprint input),
       Event.runPass2Pipeline (mainConfig args ext) args.file
          args.output] ∧
    (mainConfig args ext).hashes_files =
      [pathWithSuffix args.file ".hashes"] :=
  ⟨rfl, rfl⟩

/-- C10: `main` ignores its six formal parameters — two calls with
arbitrary different parameter values but the same parsed module-level
`args`, collaborators and input perform the same actions. -/
theorem main_ignores_parameters (f1 o1 : String) (m1 : Nat)
    (l1 d1 c1 : String) (f2 o2 : String) (m2 : Nat)
    (l2 d2 c2 : String) (args : Args) (ext : ExternalModels)
    (input : List Doc) :
    mainEvents f1 o1 m1 l1 d1 c1 args ext input =
      mainEvents f2 o2 m2 l2 d2 c2 args ext input :=
  rfl
